import Mathlib

/-!
Verification development for the gpmp2 batch trajectory optimizer
(src/gpmp2/planner/BatchTrajOptimizer.h).

The repository snapshot carries only the interface header; the bodies of
internal::BatchTrajOptimize, internal::CollisionCost, the factor classes,
the GP interpolator, the SDF and the settings struct are declared there but
not included.  Those parts are therefore modelled from the specification
(spec.md sections 3, 4.1-4.6 and 7), as a shallow embedding over exact
rational arithmetic: configurations are lists of rationals, trajectories are
lists of (pose, velocity) knots, the factor graph is an explicit list of
factor descriptors, and the black-box nonlinear solver of section 4.5 is an
arbitrary update function wrapped by the driver's accept-if-not-worse guard.
The zero-noise boundary priors of section 3 are modelled as factors whose
weighted squared residual is 0 when the knot equals its target and the top
element of WithTop Rat (infinite weight) otherwise.
-/

namespace gpmp2

/-- A robot configuration: a vector of joint values, as exact rationals. -/
abbrev Conf := List ℚ

/-- A velocity vector, matching the configuration dimension. -/
abbrev Vel := List ℚ

/-- A trajectory knot: pose (configuration) and velocity, spec section 3. -/
abbrev Knot := Conf × Vel

/-- An assignment of values to all knot variables, indexed 0..N, playing the
role of gtsam::Values with keys x(i), v(i): entry i of the list is the pair
(x(i), v(i)). -/
abbrev Values := List Knot

/-- Modelled from the spec (section 4.2, missing ObstacleCost implementation):
the one-sided hinge penalty.  Cost is eps + r - d when d < eps + r, else 0. -/
def hinge (eps r d : ℚ) : ℚ :=
  if d < eps + r then eps + r - d else 0

/-- Modelled from the spec (section 1, external SDF oracle; PlanarSDF.h is not
in src/): a planar signed distance field as a cell grid with an origin and
cell size, plus the gradient oracle as an abstract function. -/
structure PlanarSDF where
  origin : ℚ × ℚ
  cell_size : ℚ
  data : List (List ℚ)
  grad : ℚ × ℚ → ℚ × ℚ

/-- Cell index of a query point: componentwise floor of the offset from the
field origin divided by the cell size.  First component: column, second: row. -/
def cellOf (sdf : PlanarSDF) (p : ℚ × ℚ) : ℤ × ℤ :=
  (⌊(p.1 - sdf.origin.1) / sdf.cell_size⌋, ⌊(p.2 - sdf.origin.2) / sdf.cell_size⌋)

/-- Clamp an integer index into the valid range 0..n-1 of a dimension of
size n (spec section 7, DegenerateSDFQuery: clamp to nearest valid cell). -/
def clampIdx (n : ℕ) (z : ℤ) : ℕ :=
  (max 0 (min z ((n : ℤ) - 1))).toNat

/-- Grid lookup at the clamped nearest valid cell: total, never raises.
Out-of-range queries read the nearest valid cell (spec section 7). -/
def signedDistance (sdf : PlanarSDF) (p : ℚ × ℚ) : ℚ :=
  let c := cellOf sdf p
  let row := sdf.data.getD (clampIdx sdf.data.length c.2) []
  row.getD (clampIdx row.length c.1) 0

/-- Whether a query point falls inside the SDF's valid domain: its cell index
is within the grid bounds. -/
def inDomain (sdf : PlanarSDF) (p : ℚ × ℚ) : Bool :=
  let c := cellOf sdf p
  let row := sdf.data.getD c.2.toNat []
  decide (0 ≤ c.2 ∧ c.2 < (sdf.data.length : ℤ) ∧ 0 ≤ c.1 ∧ c.1 < (row.length : ℤ))

/-- Modelled from the spec (section 7, DegenerateSDFQuery): the distance value
standing for maximal penetration, a lower bound of every stored distance and
of 0, so that the corresponding hinge cost dominates every in-domain cost. -/
def maxPenDist (sdf : PlanarSDF) : ℚ :=
  (sdf.data.flatten).foldr min 0

/-- Effective signed distance used by the obstacle cost model: the oracle
value for in-domain points; for out-of-domain points the clamped-cell value
capped by the maximal-penetration distance (fail-safe, spec section 7). -/
def effDist (sdf : PlanarSDF) (p : ℚ × ℚ) : ℚ :=
  if inDomain sdf p then signedDistance sdf p
  else min (signedDistance sdf p) (maxPenDist sdf)

/-- Modelled from the spec (section 1, external kinematics adapter): one
collision-check sphere of the robot body; radius, forward kinematics of the
center, and the Jacobian of the center w.r.t. the configuration (one entry
per joint). -/
structure Sphere where
  r : ℚ
  fk : Conf → ℚ × ℚ
  fkJac : Conf → List (ℚ × ℚ)

/-- Modelled from the spec (ArmModel.h is not in src/): degrees of freedom
plus the collision-sphere body model. -/
structure ArmModel where
  dof : ℕ
  spheres : List Sphere

/-- Per-sphere obstacle cost at a configuration: hinge of the effective
signed distance at the sphere center (spec section 4.2). -/
def sphereCost (sdf : PlanarSDF) (eps : ℚ) (s : Sphere) (conf : Conf) : ℚ :=
  hinge eps s.r (effDist sdf (s.fk conf))

/-- Per-sphere cost Jacobian w.r.t. the configuration: chain rule through the
kinematics Jacobian and the negated SDF gradient when the hinge is active,
and the zero vector when it is inactive (spec section 4.2). -/
def sphereCostJacobian (sdf : PlanarSDF) (eps : ℚ) (s : Sphere) (conf : Conf) : List ℚ :=
  let center := s.fk conf
  if effDist sdf center < eps + s.r then
    (s.fkJac conf).map (fun j => -((sdf.grad center).1 * j.1 + (sdf.grad center).2 * j.2))
  else
    (s.fkJac conf).map (fun _ => 0)

/-- Vector of per-sphere obstacle costs of the whole body at one
configuration (spec section 4.2: output of the Obstacle Cost Model). -/
def armObsCosts (arm : ArmModel) (sdf : PlanarSDF) (eps : ℚ) (conf : Conf) : List ℚ :=
  arm.spheres.map (fun s => sphereCost sdf eps s conf)

/-- Total unweighted obstacle cost of one configuration: sum of the
per-sphere hinge costs. -/
def knotObsCost (arm : ArmModel) (sdf : PlanarSDF) (eps : ℚ) (conf : Conf) : ℚ :=
  (armObsCosts arm sdf eps conf).sum

/-- A 2 by 2 rational matrix, row major: entries a b on the first row and
c d on the second.  Used for the constant-velocity GP state transition and
covariance blocks of spec section 4.1, acting per configuration coordinate
on the (position, velocity) pair. -/
structure Mat2 where
  a : ℚ
  b : ℚ
  c : ℚ
  d : ℚ
deriving DecidableEq

/-- Matrix product of two 2 by 2 matrices. -/
def Mat2.mul (m n : Mat2) : Mat2 :=
  ⟨m.a * n.a + m.b * n.c, m.a * n.b + m.b * n.d,
   m.c * n.a + m.d * n.c, m.c * n.b + m.d * n.d⟩

/-- Matrix difference of two 2 by 2 matrices. -/
def Mat2.sub (m n : Mat2) : Mat2 :=
  ⟨m.a - n.a, m.b - n.b, m.c - n.c, m.d - n.d⟩

/-- Transpose of a 2 by 2 matrix. -/
def Mat2.transpose (m : Mat2) : Mat2 :=
  ⟨m.a, m.c, m.b, m.d⟩

/-- Modelled from the spec (section 4.1, missing GP prior implementation):
state transition matrix of the constant-velocity linear time-invariant prior
over a time interval t. -/
def Phi (t : ℚ) : Mat2 :=
  ⟨1, t, 0, 1⟩

/-- Modelled from the spec (section 4.1): process noise covariance of the
constant-velocity prior over an interval t with power spectral density Qc. -/
def Qmat (Qc t : ℚ) : Mat2 :=
  ⟨Qc * t ^ 3 / 3, Qc * t ^ 2 / 2, Qc * t ^ 2 / 2, Qc * t⟩

/-- Closed-form inverse of the process noise covariance over an interval t
(valid for nonzero Qc and t). -/
def Qinv (Qc t : ℚ) : Mat2 :=
  ⟨12 / (Qc * t ^ 3), -6 / (Qc * t ^ 2), -6 / (Qc * t ^ 2), 4 / (Qc * t)⟩

/-- Modelled from the spec (section 4.1): the standard Gaussian-process
interpolation matrix Psi(t) = Q(t) Phi(dt - t)^T Q(dt)^-1 weighting the
right knot in the conditional mean at time t inside an interval of length
dt. -/
def Psi (Qc dt t : ℚ) : Mat2 :=
  ((Qmat Qc t).mul (Phi (dt - t)).transpose).mul (Qinv Qc dt)

/-- Modelled from the spec (section 4.1): the interpolation matrix
Lambda(t) = Phi(t) - Psi(t) Phi(dt) weighting the left knot in the
conditional mean at time t inside an interval of length dt. -/
def Lambda (Qc dt t : ℚ) : Mat2 :=
  (Phi t).sub ((Psi Qc dt t).mul (Phi dt))

/-- Componentwise linear combination a p + b v + c q + d w of four vectors,
truncated at the shortest; the per-coordinate action of the interpolation
matrices on knot pairs. -/
def comb4 (a b c d : ℚ) : List ℚ → List ℚ → List ℚ → List ℚ → List ℚ
  | p :: ps, v :: vs, q :: qs, w :: ws =>
      (a * p + b * v + c * q + d * w) :: comb4 a b c d ps vs qs ws
  | _, _, _, _ => []

/-- Modelled from the spec (section 4.1): the interpolation operator.  Given
the two knots bounding an interval of length dt and a fraction tau, produce
the conditional-mean pose and velocity at time tau * dt past the left knot,
as the closed-form linear combination Lambda x1 + Psi x2 applied per
configuration coordinate. -/
def interpKnot (Qc dt tau : ℚ) (k1 k2 : Knot) : Knot :=
  let L := Lambda Qc dt (tau * dt)
  let P := Psi Qc dt (tau * dt)
  (comb4 L.a L.b P.a P.b k1.1 k1.2 k2.1 k2.2,
   comb4 L.c L.d P.c P.d k1.1 k1.2 k2.1 k2.2)

/-- Modelled from the spec (section 3, Settings; TrajOptimizerSetting.h is
not in src/): immutable configuration consumed by the assembler and the
driver. -/
structure TrajOptimizerSetting where
  total_time : ℚ
  total_step : ℕ
  obs_check_inter : ℕ
  check_inter : Bool
  epsilon : ℚ
  cost_sigma : ℚ
  Qc : ℚ
  max_iterations : ℕ
  rel_thresh : ℚ

/-- Knot spacing: total time divided by the number of steps (spec
section 3). -/
def deltaT (st : TrajOptimizerSetting) : ℚ :=
  st.total_time / st.total_step

/-- A factor of the assembled graph, spec section 3: a boundary factor
pinning a knot to a target state, a GP prior factor between knots i and
i + 1, an obstacle factor at knot i, or an interpolated obstacle factor at
fraction tau between knots i and i + 1. -/
inductive Factor where
  | boundary : ℕ → Knot → Factor
  | gp : ℕ → Factor
  | obstacle : ℕ → Factor
  | obstacleGP : ℕ → ℚ → Factor
deriving DecidableEq

/-- Interpolated obstacle factors of the assembler's step 5 (spec
section 4.3): for i = 0..N-1 and j = 1..M, a factor at fraction
j / (M + 1) between knots i and i + 1. -/
def interpFactors (N M : ℕ) : List Factor :=
  (List.range N).flatMap (fun (i : ℕ) =>
    (List.range M).map (fun (j : ℕ) =>
      Factor.obstacleGP i (((j : ℚ) + 1) / ((M : ℚ) + 1))))

/-- Modelled from the spec (section 4.3, missing assembler implementation):
the factor graph over N + 1 knots.  One boundary factor at knot 0 and one at
knot N, a GP prior factor for each consecutive pair, an obstacle factor at
every knot, and, when interpolated checking is enabled with M > 0, the
interpolated obstacle factors. -/
def buildGraph (startK endK : Knot) (N M : ℕ) (flag : Bool) : List Factor :=
  [Factor.boundary 0 startK, Factor.boundary N endK]
    ++ (List.range N).map Factor.gp
    ++ (List.range (N + 1)).map Factor.obstacle
    ++ (if flag ∧ 0 < M then interpFactors N M else [])

/-- Residuals of the constant-velocity GP prior between two knots, one
(position, velocity) residual pair per configuration coordinate (spec
section 4.1). -/
def gpResiduals (dt : ℚ) : List ℚ → List ℚ → List ℚ → List ℚ → List (ℚ × ℚ)
  | p1 :: ps, v1 :: vs, p2 :: qs, v2 :: ws =>
      (p2 - p1 - dt * v1, v2 - v1) :: gpResiduals dt ps vs qs ws
  | _, _, _, _ => []

/-- Weighted squared norm of one GP residual pair under the inverse process
noise covariance. -/
def gpQuad (Qc dt : ℚ) (r : ℚ × ℚ) : ℚ :=
  (Qinv Qc dt).a * r.1 ^ 2 + ((Qinv Qc dt).b + (Qinv Qc dt).c) * r.1 * r.2
    + (Qinv Qc dt).d * r.2 ^ 2

/-- Weighted squared residual of the GP prior factor between two knots. -/
def gpErrorQ (Qc dt : ℚ) (k1 k2 : Knot) : ℚ :=
  ((gpResiduals dt k1.1 k1.2 k2.1 k2.2).map (gpQuad Qc dt)).sum

/-- Weighted squared residual of an obstacle factor at one configuration:
per-sphere hinge costs scaled by the inverse obstacle noise sigma, squared
and summed (spec sections 3 and 4.2). -/
def obsErrorQ (arm : ArmModel) (sdf : PlanarSDF) (eps sigma : ℚ) (conf : Conf) : ℚ :=
  ((armObsCosts arm sdf eps conf).map (fun c => (c / sigma) ^ 2)).sum

/-- Weighted squared residual contributed by one factor on an assignment.
Boundary factors model the zero-noise priors of spec section 3: residual 0
when the knot equals its target exactly, infinite otherwise.  A factor whose
knot indices are absent from the assignment also yields the top element. -/
def factorError (arm : ArmModel) (sdf : PlanarSDF) (st : TrajOptimizerSetting)
    (vals : Values) : Factor → WithTop ℚ
  | Factor.boundary i t =>
      match vals[i]? with
      | some k => if k = t then 0 else ⊤
      | none => ⊤
  | Factor.gp i =>
      match vals[i]?, vals[i + 1]? with
      | some k1, some k2 => (gpErrorQ st.Qc (deltaT st) k1 k2 : WithTop ℚ)
      | _, _ => ⊤
  | Factor.obstacle i =>
      match vals[i]? with
      | some k => (obsErrorQ arm sdf st.epsilon st.cost_sigma k.1 : WithTop ℚ)
      | none => ⊤
  | Factor.obstacleGP i tau =>
      match vals[i]?, vals[i + 1]? with
      | some k1, some k2 =>
          (obsErrorQ arm sdf st.epsilon st.cost_sigma
            (interpKnot st.Qc (deltaT st) tau k1 k2).1 : WithTop ℚ)
      | _, _ => ⊤

/-- Total weighted squared residual of the assembled graph on an assignment
(spec section 4.4: the optimization objective). -/
def graphError (arm : ArmModel) (sdf : PlanarSDF) (st : TrajOptimizerSetting)
    (startK endK : Knot) (vals : Values) : WithTop ℚ :=
  ((buildGraph startK endK st.total_step st.obs_check_inter st.check_inter).map
    (factorError arm sdf st vals)).sum

/-- Unweighted obstacle cost of the trajectory entry at index i, 0 for an
absent entry (the claims below always run it on complete trajectories). -/
def knotCostAt (arm : ArmModel) (sdf : PlanarSDF) (eps : ℚ) (result : Values)
    (i : ℕ) : ℚ :=
  match result[i]? with
  | some k => knotObsCost arm sdf eps k.1
  | none => 0

/-- Unweighted obstacle cost of the interpolated state at fraction
(j + 1) / (M + 1) inside interval i of the trajectory. -/
def interCostAt (arm : ArmModel) (sdf : PlanarSDF) (st : TrajOptimizerSetting)
    (result : Values) (i j : ℕ) : ℚ :=
  match result[i]?, result[i + 1]? with
  | some k1, some k2 =>
      knotObsCost arm sdf st.epsilon
        (interpKnot st.Qc (deltaT st)
          (((j : ℚ) + 1) / ((st.obs_check_inter : ℚ) + 1)) k1 k2).1
  | _, _ => 0

/-- Modelled from the spec (section 4.6, missing internal::CollisionCost
implementation): the cost evaluator.  Sum of the unweighted hinge obstacle
costs over every knot and, when interpolated checking is configured, over
every interpolated sub-step, as a single scalar. -/
def CollisionCost (arm : ArmModel) (sdf : PlanarSDF) (result : Values)
    (st : TrajOptimizerSetting) : ℚ :=
  ((List.range (st.total_step + 1)).map (knotCostAt arm sdf st.epsilon result)).sum
    + (if st.check_inter ∧ 0 < st.obs_check_inter then
        ((List.range st.total_step).flatMap (fun i =>
          (List.range st.obs_check_inter).map (fun j =>
            interCostAt arm sdf st result i j))).sum
      else 0)

/-- All obstacle hinge terms at one configuration are inactive: every sphere
center keeps effective signed distance at least eps plus its radius (spec
sections 4.2 and 4.6). -/
def obsInactiveAt (arm : ArmModel) (sdf : PlanarSDF) (eps : ℚ) (conf : Conf) : Prop :=
  ∀ s ∈ arm.spheres, eps + s.r ≤ effDist sdf (s.fk conf)

/-- Every obstacle hinge term over a trajectory is inactive: at every
present knot, and, when interpolated checking is configured, at every
interpolated sub-step between present adjacent knots. -/
def allObsInactive (arm : ArmModel) (sdf : PlanarSDF) (st : TrajOptimizerSetting)
    (result : Values) : Prop :=
  (∀ i k, i < st.total_step + 1 → result[i]? = some k →
    obsInactiveAt arm sdf st.epsilon k.1)
  ∧ ((st.check_inter ∧ 0 < st.obs_check_inter) → ∀ i j k1 k2,
      i < st.total_step → j < st.obs_check_inter →
      result[i]? = some k1 → result[i + 1]? = some k2 →
      obsInactiveAt arm sdf st.epsilon
        (interpKnot st.Qc (deltaT st)
          (((j : ℚ) + 1) / ((st.obs_check_inter : ℚ) + 1)) k1 k2).1)

/-- Modelled from the spec (section 4.5, external nonlinear solver): the
solver's internal iterate proposal, a black box.  Given an iteration counter
and the current assignment it proposes a new value for each knot index;
trust-region sizing and damping are delegated and unspecified, so the
development quantifies over every such function. -/
structure Solver where
  upd : ℕ → Values → ℕ → Knot

/-- One solver proposal: a fresh assignment to the fixed set of n knot
variables (the solver updates the assignment of the existing unknowns and
can neither add nor remove variables, spec section 4.5). -/
def propose (S : Solver) (n iter : ℕ) (vals : Values) : Values :=
  (List.range n).map (S.upd iter vals)

/-- Modelled from the spec (sections 4.4, 4.5 and 7, missing driver
implementation): the optimization loop.  Each round asks the solver for a
proposal and accepts it only when it does not increase the total weighted
squared residual; otherwise no further improvement is possible and the
current iterate is returned.  The iteration cap bounds the rounds. -/
def optimizeLoop (err : Values → WithTop ℚ) (S : Solver) (n : ℕ) :
    ℕ → Values → Values
  | 0, vals => vals
  | k + 1, vals =>
      if err (propose S n k vals) ≤ err vals then
        optimizeLoop err S n k (propose S n k vals)
      else vals

/-- Boundary enforcement of the zero-noise priors (spec section 3): knot 0
is set to the supplied start state and knot N to the supplied end state
before solving. -/
def pinBoundary (startK endK : Knot) (N : ℕ) (init : Values) : Values :=
  (init.set 0 startK).set N endK

/-- The optimized assignment: the driver run on the boundary-pinned initial
guess under the graph's total weighted squared residual. -/
def optimizedValues (arm : ArmModel) (sdf : PlanarSDF)
    (st : TrajOptimizerSetting) (startK endK : Knot) (init : Values)
    (S : Solver) : Values :=
  optimizeLoop (graphError arm sdf st startK endK) S (st.total_step + 1)
    st.max_iterations (pinBoundary startK endK st.total_step init)

/-- Modelled from the spec (sections 4.3, 4.4 and 7, missing
internal::BatchTrajOptimize implementation): validate the input, assemble
the graph, initialize the knots from the initial guess with the boundary
pinned, run the driver, and return the optimized values.  Structural input
errors fail fast with InvalidConfiguration before any solving. -/
def BatchTrajOptimize (arm : ArmModel) (sdf : PlanarSDF)
    (start_conf start_vel end_conf end_vel : List ℚ) (init_values : Values)
    (setting : TrajOptimizerSetting) (S : Solver) : Except String Values :=
  if setting.total_step < 1 then Except.error "InvalidConfiguration"
  else if start_conf.length ≠ arm.dof then Except.error "InvalidConfiguration"
  else if end_conf.length ≠ arm.dof then Except.error "InvalidConfiguration"
  else if init_values.length ≠ setting.total_step + 1 then
    Except.error "InvalidConfiguration"
  else
    Except.ok (optimizedValues arm sdf setting (start_conf, start_vel)
      (end_conf, end_vel) init_values S)

/-- Concrete collision sphere used by the witnesses: unit radius, forward
kinematics onto the x axis, unit Jacobian. -/
def sphereW : Sphere :=
  ⟨1, fun c => (c.getD 0 0, 0), fun _ => [(1, 0)]⟩

/-- Concrete one-sphere arm used by the witnesses: one joint. -/
def armW : ArmModel :=
  ⟨1, [sphereW]⟩

/-- Concrete 2 by 2 all-free planar SDF used by the witnesses. -/
def sdfW : PlanarSDF :=
  ⟨(0, 0), 1, [[5, 5], [5, 5]], fun _ => (0, 0)⟩

/-- Concrete settings used by the witnesses: one step, one interpolated
sub-check, interpolated checking enabled. -/
def settingW : TrajOptimizerSetting :=
  ⟨1, 1, 1, true, 1, 1, 1, 2, 1⟩

/-- Concrete two-knot initial guess used by the witnesses. -/
def initW : Values :=
  [([0], [0]), ([1], [0])]

/-- Concrete solver used by the witnesses: proposes the current values
unchanged. -/
def solverW : Solver :=
  ⟨fun _ vals i => vals.getD i ([], [])⟩

/-- The hinge penalty is never negative. -/
theorem hinge_nonneg (eps r d : ℚ) : 0 ≤ hinge eps r d := by
  unfold hinge
  split
  · linarith
  · exact le_refl 0

/-- The hinge penalty vanishes exactly on the inactive region. -/
theorem hinge_eq_zero_iff (eps r d : ℚ) : hinge eps r d = 0 ↔ eps + r ≤ d := by
  unfold hinge
  split
  · constructor
    · intro h
      linarith
    · intro h
      next hlt => linarith
  · next h => simpa using not_lt.mp h

/-- The hinge penalty is antitone in the signed distance. -/
theorem hinge_antitone (eps r : ℚ) {d1 d2 : ℚ} (h : d1 ≤ d2) :
    hinge eps r d2 ≤ hinge eps r d1 := by
  unfold hinge
  split <;> split
  · linarith
  · next h1 h2 => linarith [not_lt.mp h2]
  · next h1 h2 => linarith [hinge_nonneg eps r d1]
  · exact le_refl 0

/-- A list fold by min over rationals with seed 0 bounds the seed. -/
theorem foldr_min_le_zero (l : List ℚ) : l.foldr min 0 ≤ 0 := by
  induction l with
  | nil => exact le_refl 0
  | cons x xs ih => exact le_trans (min_le_right x _) ih

/-- A list fold by min over rationals with seed 0 bounds every member. -/
theorem foldr_min_le_mem (l : List ℚ) {x : ℚ} (hx : x ∈ l) :
    l.foldr min 0 ≤ x := by
  induction l with
  | nil => cases hx
  | cons y ys ih =>
      rcases List.mem_cons.mp hx with h | h
      · subst h
        exact min_le_left _ _
      · exact le_trans (min_le_right _ _) (ih h)

/-- List lookup with a default yields a member or the default. -/
theorem getD_mem_or {α : Type} (l : List α) (n : ℕ) (d : α) :
    l.getD n d ∈ l ∨ l.getD n d = d := by
  induction l generalizing n with
  | nil => exact Or.inr rfl
  | cons x xs ih =>
      cases n with
      | zero => exact Or.inl (List.mem_cons_self x xs)
      | succ m =>
          rcases ih m with h | h
          · exact Or.inl (List.mem_cons_of_mem x h)
          · exact Or.inr h

/-- The maximal-penetration distance bounds every grid lookup from below. -/
theorem maxPenDist_le_signedDistance (sdf : PlanarSDF) (p : ℚ × ℚ) :
    maxPenDist sdf ≤ signedDistance sdf p := by
  simp only [signedDistance, maxPenDist]
  rcases getD_mem_or sdf.data (clampIdx sdf.data.length (cellOf sdf p).2) []
    with hrow | hrow
  · rcases getD_mem_or (sdf.data.getD (clampIdx sdf.data.length (cellOf sdf p).2) [])
      (clampIdx (sdf.data.getD (clampIdx sdf.data.length (cellOf sdf p).2) []).length
        (cellOf sdf p).1) 0 with hel | hel
    · exact foldr_min_le_mem _ (List.mem_flatten.mpr ⟨_, hrow, hel⟩)
    · rw [hel]
      exact foldr_min_le_zero _
  · rw [hrow]
    simp only [List.getD_nil]
    exact foldr_min_le_zero _

/-- The maximal-penetration distance bounds the effective distance of every
query point from below. -/
theorem maxPenDist_le_effDist (sdf : PlanarSDF) (p : ℚ × ℚ) :
    maxPenDist sdf ≤ effDist sdf p := by
  unfold effDist
  split
  · exact maxPenDist_le_signedDistance sdf p
  · exact le_min (maxPenDist_le_signedDistance sdf p) (le_refl _)

/-- Out-of-domain query points take exactly the maximal-penetration
distance as effective distance. -/
theorem effDist_of_not_inDomain (sdf : PlanarSDF) (p : ℚ × ℚ)
    (h : inDomain sdf p = false) :
    effDist sdf p = maxPenDist sdf := by
  unfold effDist
  rw [h]
  simp only [Bool.false_eq_true, if_false]
  exact min_eq_right (maxPenDist_le_signedDistance sdf p)

/-- In-domain query points take the oracle value as effective distance. -/
theorem effDist_of_inDomain (sdf : PlanarSDF) (p : ℚ × ℚ)
    (h : inDomain sdf p = true) :
    effDist sdf p = signedDistance sdf p := by
  unfold effDist
  rw [h]
  simp

/-- Sum of a list of nonnegative rationals is nonnegative. -/
theorem qsum_nonneg {l : List ℚ} (h : ∀ x ∈ l, 0 ≤ x) : 0 ≤ l.sum := by
  induction l with
  | nil => simp
  | cons x xs ih =>
      simp only [List.sum_cons]
      have hx := h x (List.mem_cons_self x xs)
      have hxs := ih (fun y hy => h y (List.mem_cons_of_mem x hy))
      linarith

/-- Sum of a list of nonnegative rationals vanishes exactly when every
member vanishes. -/
theorem qsum_eq_zero_iff {l : List ℚ} (h : ∀ x ∈ l, 0 ≤ x) :
    l.sum = 0 ↔ ∀ x ∈ l, x = 0 := by
  induction l with
  | nil => simp
  | cons x xs ih =>
      have hx := h x (List.mem_cons_self x xs)
      have hxs : ∀ y ∈ xs, 0 ≤ y := fun y hy => h y (List.mem_cons_of_mem x hy)
      have hsum := qsum_nonneg hxs
      simp only [List.sum_cons, List.mem_cons]
      constructor
      · intro h0
        have hx0 : x = 0 := le_antisymm (by linarith) hx
        have hxs0 : xs.sum = 0 := by linarith
        intro y hy
        rcases hy with rfl | hy
        · exact hx0
        · exact (ih hxs).mp hxs0 y hy
      · intro hall
        have hx0 := hall x (Or.inl rfl)
        have hxs0 : xs.sum = 0 := (ih hxs).mpr (fun y hy => hall y (Or.inr hy))
        rw [hx0, hxs0, add_zero]

/-- The total unweighted obstacle cost of one configuration is
nonnegative. -/
theorem knotObsCost_nonneg (arm : ArmModel) (sdf : PlanarSDF) (eps : ℚ)
    (conf : Conf) : 0 ≤ knotObsCost arm sdf eps conf := by
  apply qsum_nonneg
  intro x hx
  rcases List.mem_map.mp hx with ⟨s, _, rfl⟩
  exact hinge_nonneg eps s.r _

/-- The total unweighted obstacle cost of one configuration vanishes
exactly when every hinge term there is inactive. -/
theorem knotObsCost_eq_zero_iff (arm : ArmModel) (sdf : PlanarSDF) (eps : ℚ)
    (conf : Conf) :
    knotObsCost arm sdf eps conf = 0 ↔ obsInactiveAt arm sdf eps conf := by
  unfold knotObsCost obsInactiveAt
  rw [qsum_eq_zero_iff]
  · constructor
    · intro h s hs
      have := h (sphereCost sdf eps s conf)
        (List.mem_map.mpr ⟨s, hs, rfl⟩)
      exact (hinge_eq_zero_iff eps s.r _).mp this
    · intro h x hx
      rcases List.mem_map.mp hx with ⟨s, hs, rfl⟩
      exact (hinge_eq_zero_iff eps s.r _).mpr (h s hs)
  · intro x hx
    rcases List.mem_map.mp hx with ⟨s, _, rfl⟩
    exact hinge_nonneg eps s.r _

/-- Claim C4: for every robot configuration and collision sphere whose
center lies in the SDF domain with signed distance d, the obstacle cost
model assigns cost eps + r - d when d < eps + r and cost exactly 0 when
d is at least eps + r, in which case the cost Jacobian with respect to the
configuration is exactly the zero vector. -/
theorem claim_C4_obstacle_hinge (sdf : PlanarSDF) (eps : ℚ) (s : Sphere)
    (conf : Conf) (hdom : inDomain sdf (s.fk conf) = true) :
    (signedDistance sdf (s.fk conf) < eps + s.r →
      sphereCost sdf eps s conf = eps + s.r - signedDistance sdf (s.fk conf)) ∧
    (eps + s.r ≤ signedDistance sdf (s.fk conf) →
      sphereCost sdf eps s conf = 0 ∧
      sphereCostJacobian sdf eps s conf = (s.fkJac conf).map (fun _ => 0)) := by
  have hd := effDist_of_inDomain sdf (s.fk conf) hdom
  constructor
  · intro hlt
    unfold sphereCost hinge
    rw [hd]
    simp only [if_pos hlt]
  · intro hge
    constructor
    · unfold sphereCost
      rw [hd]
      exact (hinge_eq_zero_iff eps s.r _).mpr hge
    · simp only [sphereCostJacobian]
      rw [hd, if_neg (not_lt.mpr hge)]

/-- Witness for claim C4 at a concrete sphere, configuration and SDF, on
the inactive side of the hinge. -/
theorem claim_C4_obstacle_hinge_witness :
    inDomain sdfW (sphereW.fk [0]) = true ∧
    1 + sphereW.r ≤ signedDistance sdfW (sphereW.fk [0]) ∧
    sphereCost sdfW 1 sphereW [0] = 0 ∧
    sphereCostJacobian sdfW 1 sphereW [0] = (sphereW.fkJac [0]).map (fun _ => 0) :=
  have hdom : inDomain sdfW (sphereW.fk [0]) = true := by
    simp [inDomain, cellOf, sdfW, sphereW, clampIdx]
  have hge : 1 + sphereW.r ≤ signedDistance sdfW (sphereW.fk [0]) := by
    simp [signedDistance, cellOf, sdfW, sphereW, clampIdx]
    norm_num
  ⟨hdom, hge, ((claim_C4_obstacle_hinge sdfW 1 sphereW [0] hdom).2 hge).1,
   ((claim_C4_obstacle_hinge sdfW 1 sphereW [0] hdom).2 hge).2⟩

/-- Claim C8: a sphere center outside the SDF domain raises no error; the
query reads the clamped nearest valid cell and the sphere is assigned the
maximal penetration cost, which dominates the hinge cost of every query
point whatsoever. -/
theorem claim_C8_degenerate_query (sdf : PlanarSDF) (eps : ℚ) (s : Sphere)
    (conf : Conf) (hdom : inDomain sdf (s.fk conf) = false) :
    sphereCost sdf eps s conf = hinge eps s.r (maxPenDist sdf) ∧
    ∀ q : ℚ × ℚ, hinge eps s.r (effDist sdf q) ≤ sphereCost sdf eps s conf := by
  have hd := effDist_of_not_inDomain sdf (s.fk conf) hdom
  constructor
  · unfold sphereCost
    rw [hd]
  · intro q
    unfold sphereCost
    rw [hd]
    exact hinge_antitone eps s.r (maxPenDist_le_effDist sdf q)

/-- Witness for claim C8 at a concrete out-of-domain sphere center,
compared against the concrete in-domain query point at the origin. -/
theorem claim_C8_degenerate_query_witness :
    inDomain sdfW (sphereW.fk [10]) = false ∧
    sphereCost sdfW 1 sphereW [10] = hinge 1 sphereW.r (maxPenDist sdfW) ∧
    hinge 1 sphereW.r (effDist sdfW (0, 0)) ≤ sphereCost sdfW 1 sphereW [10] :=
  have hdom : inDomain sdfW (sphereW.fk [10]) = false := by
    simp [inDomain, cellOf, sdfW, sphereW, clampIdx]
  ⟨hdom, (claim_C8_degenerate_query sdfW 1 sphereW [10] hdom).1,
   (claim_C8_degenerate_query sdfW 1 sphereW [10] hdom).2 (0, 0)⟩

/-- Sum of two nonnegative rationals vanishes exactly when both vanish. -/
theorem qadd_eq_zero_iff {a b : ℚ} (ha : 0 ≤ a) (hb : 0 ≤ b) :
    a + b = 0 ↔ a = 0 ∧ b = 0 := by
  constructor
  · intro h
    constructor <;> linarith
  · rintro ⟨rfl, rfl⟩
    simp

/-- Per-knot evaluator cost is nonnegative. -/
theorem knotCostAt_nonneg (arm : ArmModel) (sdf : PlanarSDF) (eps : ℚ)
    (result : Values) (i : ℕ) : 0 ≤ knotCostAt arm sdf eps result i := by
  unfold knotCostAt
  split
  · exact knotObsCost_nonneg arm sdf eps _
  · exact le_refl 0

/-- Per-knot evaluator cost vanishes exactly when the obstacle terms at the
present knot are inactive. -/
theorem knotCostAt_eq_zero_iff (arm : ArmModel) (sdf : PlanarSDF) (eps : ℚ)
    (result : Values) (i : ℕ) :
    knotCostAt arm sdf eps result i = 0 ↔
      ∀ k, result[i]? = some k → obsInactiveAt arm sdf eps k.1 := by
  unfold knotCostAt
  split
  · next k heq =>
      rw [knotObsCost_eq_zero_iff]
      constructor
      · intro h k' hk'
        rw [heq] at hk'
        cases hk'
        exact h
      · intro h
        exact h k heq
  · next heq =>
      simp only [heq]
      constructor
      · intro _ k hk
        cases hk
      · intro _
        trivial

/-- Per-sub-step evaluator cost is nonnegative. -/
theorem interCostAt_nonneg (arm : ArmModel) (sdf : PlanarSDF)
    (st : TrajOptimizerSetting) (result : Values) (i j : ℕ) :
    0 ≤ interCostAt arm sdf st result i j := by
  unfold interCostAt
  split
  · exact knotObsCost_nonneg arm sdf st.epsilon _
  · exact le_refl 0

/-- Per-sub-step evaluator cost vanishes exactly when the interpolated
obstacle terms there are inactive. -/
theorem interCostAt_eq_zero_iff (arm : ArmModel) (sdf : PlanarSDF)
    (st : TrajOptimizerSetting) (result : Values) (i j : ℕ) :
    interCostAt arm sdf st result i j = 0 ↔
      ∀ k1 k2, result[i]? = some k1 → result[i + 1]? = some k2 →
        obsInactiveAt arm sdf st.epsilon
          (interpKnot st.Qc (deltaT st)
            (((j : ℚ) + 1) / ((st.obs_check_inter : ℚ) + 1)) k1 k2).1 := by
  unfold interCostAt
  split
  · next k1 k2 heq1 heq2 =>
      rw [knotObsCost_eq_zero_iff]
      constructor
      · intro h k1' k2' hk1 hk2
        rw [heq1] at hk1
        rw [heq2] at hk2
        cases hk1
        cases hk2
        exact h
      · intro h
        exact h k1 k2 heq1 heq2
  · next hne =>
      constructor
      · intro _ k1 k2 hk1 hk2
        exact (hne k1 k2 hk1 hk2).elim
      · intro _
        rfl

/-- Claim C9: the cost-evaluation call returns a single nonnegative scalar,
the sum of the unweighted hinge obstacle costs over every knot and, when
interpolated checking is configured, every interpolated sub-step; and this
scalar is 0 exactly when every obstacle hinge term over the trajectory is
inactive. -/
theorem claim_C9_collision_cost (arm : ArmModel) (sdf : PlanarSDF)
    (result : Values) (st : TrajOptimizerSetting) :
    0 ≤ CollisionCost arm sdf result st ∧
    (CollisionCost arm sdf result st = 0 ↔ allObsInactive arm sdf st result) := by
  have hA : ∀ x ∈ (List.range (st.total_step + 1)).map
      (knotCostAt arm sdf st.epsilon result), 0 ≤ x := by
    intro x hx
    rcases List.mem_map.mp hx with ⟨i, _, rfl⟩
    exact knotCostAt_nonneg arm sdf st.epsilon result i
  have hAiff : ((List.range (st.total_step + 1)).map
      (knotCostAt arm sdf st.epsilon result)).sum = 0 ↔
      (∀ i k, i < st.total_step + 1 → result[i]? = some k →
        obsInactiveAt arm sdf st.epsilon k.1) := by
    rw [qsum_eq_zero_iff hA]
    constructor
    · intro h i k hi hk
      have := h (knotCostAt arm sdf st.epsilon result i)
        (List.mem_map.mpr ⟨i, List.mem_range.mpr hi, rfl⟩)
      exact (knotCostAt_eq_zero_iff arm sdf st.epsilon result i).mp this k hk
    · intro h x hx
      rcases List.mem_map.mp hx with ⟨i, hi, rfl⟩
      rw [knotCostAt_eq_zero_iff]
      intro k hk
      exact h i k (List.mem_range.mp hi) hk
  by_cases hc : st.check_inter ∧ 0 < st.obs_check_inter
  · have hB : ∀ x ∈ (List.range st.total_step).flatMap (fun i =>
        (List.range st.obs_check_inter).map (fun j =>
          interCostAt arm sdf st result i j)), 0 ≤ x := by
      intro x hx
      rcases List.mem_flatMap.mp hx with ⟨i, _, hx2⟩
      rcases List.mem_map.mp hx2 with ⟨j, _, rfl⟩
      exact interCostAt_nonneg arm sdf st result i j
    have hBiff : ((List.range st.total_step).flatMap (fun i =>
        (List.range st.obs_check_inter).map (fun j =>
          interCostAt arm sdf st result i j))).sum = 0 ↔
        (∀ i j, i < st.total_step → j < st.obs_check_inter →
          ∀ k1 k2, result[i]? = some k1 → result[i + 1]? = some k2 →
            obsInactiveAt arm sdf st.epsilon
              (interpKnot st.Qc (deltaT st)
                (((j : ℚ) + 1) / ((st.obs_check_inter : ℚ) + 1)) k1 k2).1) := by
      rw [qsum_eq_zero_iff hB]
      constructor
      · intro h i j hi hj k1 k2 hk1 hk2
        have := h (interCostAt arm sdf st result i j)
          (List.mem_flatMap.mpr ⟨i, List.mem_range.mpr hi,
            List.mem_map.mpr ⟨j, List.mem_range.mpr hj, rfl⟩⟩)
        exact (interCostAt_eq_zero_iff arm sdf st result i j).mp this k1 k2 hk1 hk2
      · intro h x hx
        rcases List.mem_flatMap.mp hx with ⟨i, hi, hx2⟩
        rcases List.mem_map.mp hx2 with ⟨j, hj, rfl⟩
        rw [interCostAt_eq_zero_iff]
        intro k1 k2 hk1 hk2
        exact h i j (List.mem_range.mp hi) (List.mem_range.mp hj) k1 k2 hk1 hk2
    unfold CollisionCost
    rw [if_pos hc]
    have h1 := qsum_nonneg hA
    have h2 := qsum_nonneg hB
    refine ⟨by linarith, ?_⟩
    rw [qadd_eq_zero_iff h1 h2, hAiff, hBiff]
    unfold allObsInactive
    constructor
    · rintro ⟨ha, hb⟩
      exact ⟨ha, fun _ i j k1 k2 hi hj hk1 hk2 => hb i j hi hj k1 k2 hk1 hk2⟩
    · rintro ⟨ha, hb⟩
      exact ⟨ha, fun i j hi hj k1 k2 hk1 hk2 => hb hc i j k1 k2 hi hj hk1 hk2⟩
  · unfold CollisionCost
    rw [if_neg hc]
    have h1 := qsum_nonneg hA
    refine ⟨by linarith, ?_⟩
    rw [add_zero, hAiff]
    unfold allObsInactive
    constructor
    · intro ha
      exact ⟨ha, fun hcc => absurd hcc hc⟩
    · rintro ⟨ha, _⟩
      exact ha

/-- The right-knot interpolation matrix vanishes at the left endpoint. -/
theorem Psi_at_zero (Qc dt : ℚ) : Psi Qc dt 0 = ⟨0, 0, 0, 0⟩ := by
  simp only [Psi, Qmat, Phi, Qinv, Mat2.mul, Mat2.transpose, Mat2.mk.injEq]
  norm_num

/-- The left-knot interpolation matrix is the identity at the left
endpoint. -/
theorem Lambda_at_zero (Qc dt : ℚ) : Lambda Qc dt 0 = ⟨1, 0, 0, 1⟩ := by
  rw [Lambda, Psi_at_zero]
  simp only [Phi, Mat2.mul, Mat2.sub, Mat2.mk.injEq]
  norm_num

/-- The right-knot interpolation matrix is the identity at the right
endpoint. -/
theorem Psi_at_dt {Qc dt : ℚ} (hQ : Qc ≠ 0) (hdt : dt ≠ 0) :
    Psi Qc dt dt = ⟨1, 0, 0, 1⟩ := by
  simp only [Psi, Qmat, Phi, Qinv, Mat2.mul, Mat2.transpose, Mat2.mk.injEq,
    sub_self]
  refine ⟨?_, ?_, ?_, ?_⟩ <;> field_simp <;> ring

/-- The left-knot interpolation matrix vanishes at the right endpoint. -/
theorem Lambda_at_dt {Qc dt : ℚ} (hQ : Qc ≠ 0) (hdt : dt ≠ 0) :
    Lambda Qc dt dt = ⟨0, 0, 0, 0⟩ := by
  rw [Lambda, Psi_at_dt hQ hdt]
  simp only [Phi, Mat2.mul, Mat2.sub, Mat2.mk.injEq]
  norm_num

/-- The combination with coefficients 1 0 0 0 selects the first list. -/
theorem comb4_sel1 : ∀ (p v q w : List ℚ), v.length = p.length →
    q.length = p.length → w.length = p.length → comb4 1 0 0 0 p v q w = p := by
  intro p
  induction p with
  | nil =>
      intro v q w _ _ _
      cases v <;> cases q <;> cases w <;> rfl
  | cons x xs ih =>
      intro v q w hv hq hw
      cases v with
      | nil => simp at hv
      | cons y ys =>
          cases q with
          | nil => simp at hq
          | cons z zs =>
              cases w with
              | nil => simp at hw
              | cons u us =>
                  simp only [comb4, List.cons.injEq]
                  refine ⟨by ring, ?_⟩
                  exact ih ys zs us (by simpa using hv) (by simpa using hq)
                    (by simpa using hw)

/-- The combination with coefficients 0 1 0 0 selects the second list. -/
theorem comb4_sel2 : ∀ (p v q w : List ℚ), v.length = p.length →
    q.length = p.length → w.length = p.length → comb4 0 1 0 0 p v q w = v := by
  intro p
  induction p with
  | nil =>
      intro v q w hv _ _
      have hv0 : v = [] := List.length_eq_zero.mp (by simpa using hv)
      subst hv0
      rfl
  | cons x xs ih =>
      intro v q w hv hq hw
      cases v with
      | nil => simp at hv
      | cons y ys =>
          cases q with
          | nil => simp at hq
          | cons z zs =>
              cases w with
              | nil => simp at hw
              | cons u us =>
                  simp only [comb4, List.cons.injEq]
                  refine ⟨by ring, ?_⟩
                  exact ih ys zs us (by simpa using hv) (by simpa using hq)
                    (by simpa using hw)

/-- The combination with coefficients 0 0 1 0 selects the third list. -/
theorem comb4_sel3 : ∀ (p v q w : List ℚ), v.length = p.length →
    q.length = p.length → w.length = p.length → comb4 0 0 1 0 p v q w = q := by
  intro p
  induction p with
  | nil =>
      intro v q w _ hq _
      have hq0 : q = [] := List.length_eq_zero.mp (by simpa using hq)
      subst hq0
      cases v <;> rfl
  | cons x xs ih =>
      intro v q w hv hq hw
      cases v with
      | nil => simp at hv
      | cons y ys =>
          cases q with
          | nil => simp at hq
          | cons z zs =>
              cases w with
              | nil => simp at hw
              | cons u us =>
                  simp only [comb4, List.cons.injEq]
                  refine ⟨by ring, ?_⟩
                  exact ih ys zs us (by simpa using hv) (by simpa using hq)
                    (by simpa using hw)

/-- The combination with coefficients 0 0 0 1 selects the fourth list. -/
theorem comb4_sel4 : ∀ (p v q w : List ℚ), v.length = p.length →
    q.length = p.length → w.length = p.length → comb4 0 0 0 1 p v q w = w := by
  intro p
  induction p with
  | nil =>
      intro v q w _ _ hw
      have hw0 : w = [] := List.length_eq_zero.mp (by simpa using hw)
      subst hw0
      cases v <;> cases q <;> rfl
  | cons x xs ih =>
      intro v q w hv hq hw
      cases v with
      | nil => simp at hv
      | cons y ys =>
          cases q with
          | nil => simp at hq
          | cons z zs =>
              cases w with
              | nil => simp at hw
              | cons u us =>
                  simp only [comb4, List.cons.injEq]
                  refine ⟨by ring, ?_⟩
                  exact ih ys zs us (by simpa using hv) (by simpa using hq)
                    (by simpa using hw)

/-- Claim C3: for every pair of adjacent knots of matching dimensions, the
motion prior model's interpolation operator at fraction 0 returns exactly
the left knot's pose and velocity, and at fraction 1 exactly the right
knot's. -/
theorem claim_C3_interp_consistency {Qc dt : ℚ} (hQ : Qc ≠ 0) (hdt : dt ≠ 0)
    (k1 k2 : Knot) (h1 : k1.2.length = k1.1.length)
    (h2 : k2.1.length = k1.1.length) (h3 : k2.2.length = k1.1.length) :
    interpKnot Qc dt 0 k1 k2 = k1 ∧ interpKnot Qc dt 1 k1 k2 = k2 := by
  obtain ⟨p1, v1⟩ := k1
  obtain ⟨p2, v2⟩ := k2
  simp only at h1 h2 h3
  constructor
  · show (_, _) = (p1, v1)
    simp only [interpKnot, zero_mul, Lambda_at_zero, Psi_at_zero]
    rw [comb4_sel1 p1 v1 p2 v2 h1 h2 h3, comb4_sel2 p1 v1 p2 v2 h1 h2 h3]
  · show (_, _) = (p2, v2)
    simp only [interpKnot, one_mul, Lambda_at_dt hQ hdt, Psi_at_dt hQ hdt]
    rw [comb4_sel3 p1 v1 p2 v2 h1 h2 h3, comb4_sel4 p1 v1 p2 v2 h1 h2 h3]

/-- Witness for claim C3 at concrete knots and parameters. -/
theorem claim_C3_interp_consistency_witness :
    interpKnot 1 1 0 ([0], [0]) ([1], [2]) = (([0] : List ℚ), ([0] : List ℚ)) ∧
    interpKnot 1 1 1 ([0], [0]) ([1], [2]) = (([1] : List ℚ), ([2] : List ℚ)) :=
  claim_C3_interp_consistency one_ne_zero one_ne_zero ([0], [0]) ([1], [2])
    rfl rfl rfl

/-- Reindexing of the interpolated sub-step fractions: zero-based j below M
with fraction (j + 1) / (M + 1) matches one-based j between 1 and M with
fraction j / (M + 1). -/
theorem jshift_iff (i : ℕ) (M : ℕ) (f : Factor) :
    (∃ j, j < M ∧ f = Factor.obstacleGP i (((j : ℚ) + 1) / ((M : ℚ) + 1))) ↔
    (∃ j : ℕ, 1 ≤ j ∧ j ≤ M ∧ f = Factor.obstacleGP i ((j : ℚ) / ((M : ℚ) + 1))) := by
  constructor
  · rintro ⟨j, hj, rfl⟩
    refine ⟨j + 1, by omega, by omega, ?_⟩
    push_cast
    ring_nf
  · rintro ⟨j, hj1, hjM, rfl⟩
    refine ⟨j - 1, by omega, ?_⟩
    congr 1
    have : ((j - 1 : ℕ) : ℚ) = (j : ℚ) - 1 := by
      push_cast [hj1]
      ring
    rw [this]
    ring_nf

/-- Membership of the GP prior segment of the graph. -/
theorem mem_map_gp_iff (N : ℕ) (f : Factor) :
    f ∈ (List.range N).map Factor.gp ↔ ∃ i, i < N ∧ f = Factor.gp i := by
  rw [List.mem_map]
  constructor
  · rintro ⟨i, hi, rfl⟩
    exact ⟨i, List.mem_range.mp hi, rfl⟩
  · rintro ⟨i, hi, rfl⟩
    exact ⟨i, List.mem_range.mpr hi, rfl⟩

/-- Membership of the obstacle segment of the graph. -/
theorem mem_map_obstacle_iff (N : ℕ) (f : Factor) :
    f ∈ (List.range (N + 1)).map Factor.obstacle ↔
      ∃ i, i < N + 1 ∧ f = Factor.obstacle i := by
  rw [List.mem_map]
  constructor
  · rintro ⟨i, hi, rfl⟩
    exact ⟨i, List.mem_range.mp hi, rfl⟩
  · rintro ⟨i, hi, rfl⟩
    exact ⟨i, List.mem_range.mpr hi, rfl⟩

/-- Membership of the interpolated obstacle segment of the graph, phrased
with one-based sub-step indices. -/
theorem mem_interpFactors_iff (N M : ℕ) (f : Factor) :
    f ∈ interpFactors N M ↔
      ∃ i, i < N ∧ ∃ j : ℕ, 1 ≤ j ∧ j ≤ M ∧
        f = Factor.obstacleGP i ((j : ℚ) / ((M : ℚ) + 1)) := by
  unfold interpFactors
  rw [List.mem_flatMap]
  constructor
  · rintro ⟨i, hi, hmem⟩
    rcases List.mem_map.mp hmem with ⟨j, hj, rfl⟩
    exact ⟨i, List.mem_range.mp hi,
      (jshift_iff i M _).mp ⟨j, List.mem_range.mp hj, rfl⟩⟩
  · rintro ⟨i, hi, hj⟩
    rcases (jshift_iff i M f).mpr hj with ⟨j, hjM, hf⟩
    exact ⟨i, List.mem_range.mpr hi,
      List.mem_map.mpr ⟨j, List.mem_range.mpr hjM, hf.symm⟩⟩

/-- Membership of a conditional segment with empty alternative. -/
theorem mem_ite_nil (c : Prop) [Decidable c] (l : List Factor) (f : Factor) :
    f ∈ (if c then l else []) ↔ c ∧ f ∈ l := by
  by_cases h : c
  · simp [h]
  · simp [h]

/-- Membership characterization of the assembled factor graph: exactly the
boundary factors at knots 0 and N, the GP prior factors of the consecutive
pairs, the obstacle factors of every knot, and, when interpolated checking
is enabled with a positive sub-step count, the interpolated obstacle factors
at fractions j / (M + 1). -/
theorem mem_buildGraph_iff (startK endK : Knot) (N M : ℕ) (flag : Bool)
    (f : Factor) :
    f ∈ buildGraph startK endK N M flag ↔
      (f = Factor.boundary 0 startK ∨ f = Factor.boundary N endK ∨
       (∃ i, i < N ∧ f = Factor.gp i) ∨
       (∃ i, i < N + 1 ∧ f = Factor.obstacle i) ∨
       ((flag ∧ 0 < M) ∧ ∃ i, i < N ∧ ∃ j : ℕ, 1 ≤ j ∧ j ≤ M ∧
         f = Factor.obstacleGP i ((j : ℚ) / ((M : ℚ) + 1)))) := by
  unfold buildGraph
  simp only [List.mem_append, List.mem_cons, List.not_mem_nil, or_false,
    or_assoc]
  rw [mem_map_gp_iff, mem_map_obstacle_iff, mem_ite_nil,
    mem_interpFactors_iff]

/-- The assembled factor graph has no duplicate factors when N is at least
1. -/
theorem buildGraph_nodup (startK endK : Knot) (N M : ℕ) (flag : Bool)
    (hN : 1 ≤ N) : (buildGraph startK endK N M flag).Nodup := by
  unfold buildGraph
  have hb : ([Factor.boundary 0 startK, Factor.boundary N endK] : List Factor).Nodup := by
    refine List.nodup_cons.mpr ⟨?_, List.nodup_singleton _⟩
    simp only [List.mem_singleton]
    intro h
    injection h with h1 h2
    omega
  have hgp : ((List.range N).map Factor.gp).Nodup :=
    (List.nodup_range N).map (fun a b h => by injection h)
  have hobs : ((List.range (N + 1)).map Factor.obstacle).Nodup :=
    (List.nodup_range (N + 1)).map (fun a b h => by injection h)
  have hM : ∀ a b : ℕ, ((a : ℚ) + 1) / ((M : ℚ) + 1) = ((b : ℚ) + 1) / ((M : ℚ) + 1) → a = b := by
    intro a b hq
    have hM0 : ((M : ℚ) + 1) ≠ 0 := by positivity
    have h2 : ((a : ℚ) + 1) * ((M : ℚ) + 1) = ((b : ℚ) + 1) * ((M : ℚ) + 1) :=
      (div_eq_div_iff hM0 hM0).mp hq
    have h3 : ((a : ℚ)) = (b : ℚ) := by
      have h4 := mul_right_cancel₀ hM0 h2
      linarith
    exact_mod_cast h3
  have hint : (if flag ∧ 0 < M then interpFactors N M else []).Nodup := by
    split
    · unfold interpFactors
      rw [List.nodup_flatMap]
      constructor
      · intro i _
        refine (List.nodup_range M).map (fun a b h => ?_)
        have hq : ((a : ℚ) + 1) / ((M : ℚ) + 1) = ((b : ℚ) + 1) / ((M : ℚ) + 1) := by
          injection h
        exact hM a b hq
      · refine List.Pairwise.imp ?_ (List.pairwise_lt_range N)
        intro a b hab x hxa hxb
        rcases List.mem_map.mp hxa with ⟨j, _, rfl⟩
        rcases List.mem_map.mp hxb with ⟨j', _, hx⟩
        have hba : b = a := by
          injection hx
        omega
    · exact List.nodup_nil
  have d1 : ([Factor.boundary 0 startK, Factor.boundary N endK] : List Factor).Disjoint
      ((List.range N).map Factor.gp) := by
    intro x hx hy
    rcases List.mem_map.mp hy with ⟨i, _, rfl⟩
    simp at hx
  have h12 : (([Factor.boundary 0 startK, Factor.boundary N endK] : List Factor)
      ++ (List.range N).map Factor.gp).Nodup := hb.append hgp d1
  have d2 : (([Factor.boundary 0 startK, Factor.boundary N endK] : List Factor)
      ++ (List.range N).map Factor.gp).Disjoint
      ((List.range (N + 1)).map Factor.obstacle) := by
    intro x hx hy
    rcases List.mem_map.mp hy with ⟨i, _, rfl⟩
    rcases List.mem_append.mp hx with hx | hx
    · simp at hx
    · rcases List.mem_map.mp hx with ⟨i', _, hx⟩
      exact Factor.noConfusion hx
  have h123 : ((([Factor.boundary 0 startK, Factor.boundary N endK] : List Factor)
      ++ (List.range N).map Factor.gp)
      ++ (List.range (N + 1)).map Factor.obstacle).Nodup := h12.append hobs d2
  have d3 : ((([Factor.boundary 0 startK, Factor.boundary N endK] : List Factor)
      ++ (List.range N).map Factor.gp)
      ++ (List.range (N + 1)).map Factor.obstacle).Disjoint
      (if flag ∧ 0 < M then interpFactors N M else []) := by
    intro x hx hy
    have hx2 : ∃ i j, x = Factor.obstacleGP i j := by
      split at hy
      · rcases (mem_interpFactors_iff N M x).mp hy with ⟨i, _, j, _, _, rfl⟩
        exact ⟨i, _, rfl⟩
      · cases hy
    rcases hx2 with ⟨i, j, rfl⟩
    rcases List.mem_append.mp hx with hx | hx
    · rcases List.mem_append.mp hx with hx | hx
      · simp at hx
      · rcases List.mem_map.mp hx with ⟨i', _, hx⟩
        exact Factor.noConfusion hx
    · rcases List.mem_map.mp hx with ⟨i', _, hx⟩
      exact Factor.noConfusion hx
  exact h123.append hint d3

/-- Claim C5: for N at least 1, the assembled factor graph contains exactly
one boundary factor at knot 0 and one at knot N, one GP prior factor per
consecutive knot pair, one obstacle factor per knot, and, exactly when
interpolated checking is enabled with M positive, one interpolated obstacle
factor at fraction j / (M + 1) per interval and one-based sub-step index,
and no other factors; exactness holds since the graph has no duplicates. -/
theorem claim_C5_graph_contents (startK endK : Knot) (N M : ℕ) (flag : Bool)
    (hN : 1 ≤ N) :
    (∀ f, f ∈ buildGraph startK endK N M flag ↔
      (f = Factor.boundary 0 startK ∨ f = Factor.boundary N endK ∨
       (∃ i, i < N ∧ f = Factor.gp i) ∨
       (∃ i, i < N + 1 ∧ f = Factor.obstacle i) ∨
       ((flag ∧ 0 < M) ∧ ∃ i, i < N ∧ ∃ j : ℕ, 1 ≤ j ∧ j ≤ M ∧
         f = Factor.obstacleGP i ((j : ℚ) / ((M : ℚ) + 1))))) ∧
    (buildGraph startK endK N M flag).Nodup :=
  ⟨fun f => mem_buildGraph_iff startK endK N M flag f,
   buildGraph_nodup startK endK N M flag hN⟩

/-- Witness for claim C5 on a concrete two-knot assembly: the boundary
factor at knot 0 is in the graph, a GP factor beyond the last interval is
not, and the graph is duplicate free. -/
theorem claim_C5_graph_contents_witness :
    Factor.boundary 0 (([0], [0]) : Knot) ∈
      buildGraph (([0], [0]) : Knot) (([1], [0]) : Knot) 1 1 true ∧
    Factor.gp 1 ∉ buildGraph (([0], [0]) : Knot) (([1], [0]) : Knot) 1 1 true ∧
    (buildGraph (([0], [0]) : Knot) (([1], [0]) : Knot) 1 1 true).Nodup :=
  have hmain := claim_C5_graph_contents ([0], [0]) ([1], [0]) 1 1 true (by decide)
  ⟨(hmain.1 (Factor.boundary 0 ([0], [0]))).mpr (Or.inl rfl),
   fun hmem => by
     rcases (hmain.1 (Factor.gp 1)).mp hmem with h | h | ⟨i, hi, h⟩ | ⟨i, _, h⟩ |
       ⟨_, i, _, j, _, _, h⟩
     · exact Factor.noConfusion h
     · exact Factor.noConfusion h
     · injection h with h1
       omega
     · exact Factor.noConfusion h
     · exact Factor.noConfusion h,
   hmain.2⟩

/-- A sum of extended rationals avoids the top element when every summand
does. -/
theorem wsum_ne_top {l : List (WithTop ℚ)} (h : ∀ x ∈ l, x ≠ ⊤) :
    l.sum ≠ ⊤ := by
  induction l with
  | nil => simp
  | cons x xs ih =>
      rw [List.sum_cons]
      exact WithTop.add_ne_top.mpr ⟨h x (List.mem_cons_self x xs),
        ih (fun y hy => h y (List.mem_cons_of_mem x hy))⟩

/-- Every summand of a top-free sum of extended rationals avoids the top
element. -/
theorem wsum_mem_ne_top {l : List (WithTop ℚ)} (h : l.sum ≠ ⊤) :
    ∀ x ∈ l, x ≠ ⊤ := by
  induction l with
  | nil => simp
  | cons x xs ih =>
      rw [List.sum_cons] at h
      intro y hy
      rcases List.mem_cons.mp hy with rfl | hy
      · exact (WithTop.add_ne_top.mp h).1
      · exact ih (WithTop.add_ne_top.mp h).2 y hy

/-- The boundary factor's error avoids the top element exactly when the
assignment holds the target at the factor's knot. -/
theorem boundary_factorError_ne_top_iff (arm : ArmModel) (sdf : PlanarSDF)
    (st : TrajOptimizerSetting) (vals : Values) (i : ℕ) (t : Knot) :
    factorError arm sdf st vals (Factor.boundary i t) ≠ ⊤ ↔
      vals[i]? = some t := by
  simp only [factorError]
  cases h : vals[i]? with
  | none => simp
  | some k =>
      by_cases hk : k = t
      · simp [hk]
      · simp [hk]

/-- Proposals have the fixed number of knot variables. -/
theorem propose_length (S : Solver) (n iter : ℕ) (vals : Values) :
    (propose S n iter vals).length = n := by
  unfold propose
  rw [List.length_map, List.length_range]

/-- The driver's loop never increases the objective. -/
theorem optimizeLoop_le (err : Values → WithTop ℚ) (S : Solver) (n : ℕ) :
    ∀ (k : ℕ) (vals : Values),
      err (optimizeLoop err S n k vals) ≤ err vals := by
  intro k
  induction k with
  | zero => intro vals; exact le_refl _
  | succ m ih =>
      intro vals
      unfold optimizeLoop
      split
      · next hacc => exact le_trans (ih _) hacc
      · exact le_refl _

/-- The driver's loop preserves the number of knot variables. -/
theorem optimizeLoop_length (err : Values → WithTop ℚ) (S : Solver) (n : ℕ) :
    ∀ (k : ℕ) (vals : Values), vals.length = n →
      (optimizeLoop err S n k vals).length = n := by
  intro k
  induction k with
  | zero => intro vals h; exact h
  | succ m ih =>
      intro vals h
      unfold optimizeLoop
      split
      · exact ih _ (propose_length S n m vals)
      · exact h

/-- Setting an entry to the value it already holds leaves a list
unchanged. -/
theorem set_of_getElem? {α : Type} :
    ∀ (l : List α) (i : ℕ) (a : α), l[i]? = some a → l.set i a = l := by
  intro l
  induction l with
  | nil =>
      intro i a h
      simp at h
  | cons x xs ih =>
      intro i a h
      cases i with
      | zero =>
          simp only [List.getElem?_cons_zero, Option.some.injEq] at h
          rw [List.set_cons_zero, h]
      | succ m =>
          simp only [List.getElem?_cons_succ] at h
          rw [List.set_cons_succ, ih m a h]

/-- Pinning preserves the trajectory length. -/
theorem pinBoundary_length (sK eK : Knot) (N : ℕ) (init : Values) :
    (pinBoundary sK eK N init).length = init.length := by
  unfold pinBoundary
  rw [List.length_set, List.length_set]

/-- The pinned trajectory holds the start state at knot 0. -/
theorem pinBoundary_getElem_zero (sK eK : Knot) (N : ℕ) (init : Values)
    (hN : 1 ≤ N) (hlen : init.length = N + 1) :
    (pinBoundary sK eK N init)[0]? = some sK := by
  unfold pinBoundary
  rw [List.getElem?_set_ne (by omega)]
  exact List.getElem?_set_eq_of_lt sK (by omega)

/-- The pinned trajectory holds the end state at knot N. -/
theorem pinBoundary_getElem_last (sK eK : Knot) (N : ℕ) (init : Values)
    (hlen : init.length = N + 1) :
    (pinBoundary sK eK N init)[N]? = some eK := by
  unfold pinBoundary
  exact List.getElem?_set_eq_of_lt eK (by simp [List.length_set]; omega)

/-- A pinned trajectory of full length that holds both boundary states has
a top-free graph error: the boundary residuals vanish and every other
factor contributes a finite weighted residual. -/
theorem graphError_ne_top (arm : ArmModel) (sdf : PlanarSDF)
    (st : TrajOptimizerSetting) (sK eK : Knot) (vals : Values)
    (hlen : vals.length = st.total_step + 1)
    (h0 : vals[0]? = some sK) (hN : vals[st.total_step]? = some eK) :
    graphError arm sdf st sK eK vals ≠ ⊤ := by
  apply wsum_ne_top
  intro x hx
  rcases List.mem_map.mp hx with ⟨f, hf, rfl⟩
  have hsome : ∀ i, i < st.total_step + 1 → ∃ k, vals[i]? = some k := by
    intro i hi
    have hi1 : i < vals.length := by omega
    exact ⟨vals.get ⟨i, hi1⟩, by
      rw [List.getElem?_eq_getElem hi1]
      rfl⟩
  rcases (mem_buildGraph_iff sK eK st.total_step st.obs_check_inter
      st.check_inter f).mp hf with h | h | ⟨i, hi, rfl⟩ | ⟨i, hi, rfl⟩ |
      ⟨_, i, hi, j, _, _, rfl⟩
  · subst h
    exact (boundary_factorError_ne_top_iff arm sdf st vals 0 sK).mpr h0
  · subst h
    exact (boundary_factorError_ne_top_iff arm sdf st vals st.total_step
      eK).mpr hN
  · rcases hsome i (by omega) with ⟨k1, hk1⟩
    rcases hsome (i + 1) (by omega) with ⟨k2, hk2⟩
    simp [factorError, hk1, hk2]
  · rcases hsome i hi with ⟨k, hk⟩
    simp [factorError, hk]
  · rcases hsome i (by omega) with ⟨k1, hk1⟩
    rcases hsome (i + 1) (by omega) with ⟨k2, hk2⟩
    simp [factorError, hk1, hk2]

/-- A trajectory with top-free graph error holds both boundary states
exactly: the zero-noise boundary factors force them. -/
theorem graphError_boundary (arm : ArmModel) (sdf : PlanarSDF)
    (st : TrajOptimizerSetting) (sK eK : Knot) (vals : Values)
    (h : graphError arm sdf st sK eK vals ≠ ⊤) :
    vals[0]? = some sK ∧ vals[st.total_step]? = some eK := by
  have hmem0 : Factor.boundary 0 sK ∈ buildGraph sK eK st.total_step
      st.obs_check_inter st.check_inter :=
    (mem_buildGraph_iff sK eK st.total_step st.obs_check_inter st.check_inter
      _).mpr (Or.inl rfl)
  have hmemN : Factor.boundary st.total_step eK ∈ buildGraph sK eK
      st.total_step st.obs_check_inter st.check_inter :=
    (mem_buildGraph_iff sK eK st.total_step st.obs_check_inter st.check_inter
      _).mpr (Or.inr (Or.inl rfl))
  have h0 := wsum_mem_ne_top h _ (List.mem_map.mpr ⟨_, hmem0, rfl⟩)
  have hN := wsum_mem_ne_top h _ (List.mem_map.mpr ⟨_, hmemN, rfl⟩)
  exact ⟨(boundary_factorError_ne_top_iff arm sdf st vals 0 sK).mp h0,
    (boundary_factorError_ne_top_iff arm sdf st vals st.total_step eK).mp hN⟩

/-- Pinning the boundary never increases the graph error: an initial guess
already holding both boundary states is unchanged, and one violating them
has top (infinite-weight) error. -/
theorem graphError_pin_le (arm : ArmModel) (sdf : PlanarSDF)
    (st : TrajOptimizerSetting) (sK eK : Knot) (init : Values) :
    graphError arm sdf st sK eK (pinBoundary sK eK st.total_step init) ≤
      graphError arm sdf st sK eK init := by
  by_cases hb : init[0]? = some sK ∧ init[st.total_step]? = some eK
  · have : pinBoundary sK eK st.total_step init = init := by
      unfold pinBoundary
      rw [set_of_getElem? init 0 sK hb.1, set_of_getElem? init st.total_step
        eK hb.2]
    rw [this]
  · have htop : graphError arm sdf st sK eK init = ⊤ := by
      by_contra h
      exact hb (graphError_boundary arm sdf st sK eK init h)
    rw [htop]
    exact le_top

/-- On validated input the optimizer returns the driver's result. -/
theorem batch_ok (arm : ArmModel) (sdf : PlanarSDF)
    (sc sv ec ev : List ℚ) (init : Values) (st : TrajOptimizerSetting)
    (S : Solver) (hN : 1 ≤ st.total_step) (h1 : sc.length = arm.dof)
    (h2 : ec.length = arm.dof) (h3 : init.length = st.total_step + 1) :
    BatchTrajOptimize arm sdf sc sv ec ev init st S =
      Except.ok (optimizedValues arm sdf st (sc, sv) (ec, ev) init S) := by
  unfold BatchTrajOptimize
  rw [if_neg (by omega), if_neg (not_ne_iff.mpr h1),
    if_neg (not_ne_iff.mpr h2), if_neg (not_ne_iff.mpr h3)]

/-- Claim C1: every trajectory returned by a successful BatchTrajOptimize
call holds knot 0 exactly equal to the supplied start configuration and
velocity, and knot N exactly equal to the supplied end configuration and
velocity. -/
theorem claim_C1_boundary_pinned (arm : ArmModel) (sdf : PlanarSDF)
    (sc sv ec ev : List ℚ) (init : Values) (st : TrajOptimizerSetting)
    (S : Solver) (R : Values)
    (h : BatchTrajOptimize arm sdf sc sv ec ev init st S = Except.ok R) :
    R[0]? = some (sc, sv) ∧ R[st.total_step]? = some (ec, ev) := by
  unfold BatchTrajOptimize at h
  split_ifs at h with hv1 hv2 hv3 hv4
  · injection h with hR
    subst hR
    have hlen : init.length = st.total_step + 1 := not_ne_iff.mp hv4
    have hpl : (pinBoundary (sc, sv) (ec, ev) st.total_step init).length =
        st.total_step + 1 :=
      (pinBoundary_length (sc, sv) (ec, ev) st.total_step init).trans hlen
    have hp0 := pinBoundary_getElem_zero (sc, sv) (ec, ev) st.total_step init
      (by omega) hlen
    have hpN := pinBoundary_getElem_last (sc, sv) (ec, ev) st.total_step init
      hlen
    have hfin := graphError_ne_top arm sdf st (sc, sv) (ec, ev) _ hpl hp0 hpN
    have hle : graphError arm sdf st (sc, sv) (ec, ev)
        (optimizedValues arm sdf st (sc, sv) (ec, ev) init S) ≤
        graphError arm sdf st (sc, sv) (ec, ev)
          (pinBoundary (sc, sv) (ec, ev) st.total_step init) := by
      unfold optimizedValues
      exact optimizeLoop_le _ S (st.total_step + 1) st.max_iterations _
    exact graphError_boundary arm sdf st (sc, sv) (ec, ev) _
      (ne_top_of_le_ne_top hfin hle)

/-- Witness for claim C1 on a concrete validated run. -/
theorem claim_C1_boundary_pinned_witness :
    BatchTrajOptimize armW sdfW [0] [0] [1] [0] initW settingW solverW =
      Except.ok (optimizedValues armW sdfW settingW ([0], [0]) ([1], [0])
        initW solverW) ∧
    (optimizedValues armW sdfW settingW ([0], [0]) ([1], [0]) initW
      solverW)[0]? = some ([0], [0]) ∧
    (optimizedValues armW sdfW settingW ([0], [0]) ([1], [0]) initW
      solverW)[settingW.total_step]? = some ([1], [0]) :=
  have h : BatchTrajOptimize armW sdfW [0] [0] [1] [0] initW settingW
      solverW = Except.ok (optimizedValues armW sdfW settingW ([0], [0])
        ([1], [0]) initW solverW) := rfl
  ⟨h, (claim_C1_boundary_pinned armW sdfW [0] [0] [1] [0] initW settingW
      solverW _ h).1,
   (claim_C1_boundary_pinned armW sdfW [0] [0] [1] [0] initW settingW
      solverW _ h).2⟩

/-- Claim C2: the total weighted squared residual of the assembled graph on
any trajectory returned by a successful BatchTrajOptimize call is at most
its value on the supplied initial guess. -/
theorem claim_C2_objective_nonincrease (arm : ArmModel) (sdf : PlanarSDF)
    (sc sv ec ev : List ℚ) (init : Values) (st : TrajOptimizerSetting)
    (S : Solver) (R : Values)
    (h : BatchTrajOptimize arm sdf sc sv ec ev init st S = Except.ok R) :
    graphError arm sdf st (sc, sv) (ec, ev) R ≤
      graphError arm sdf st (sc, sv) (ec, ev) init := by
  unfold BatchTrajOptimize at h
  split_ifs at h with hv1 hv2 hv3 hv4
  · injection h with hR
    subst hR
    have hstep : graphError arm sdf st (sc, sv) (ec, ev)
        (optimizedValues arm sdf st (sc, sv) (ec, ev) init S) ≤
        graphError arm sdf st (sc, sv) (ec, ev)
          (pinBoundary (sc, sv) (ec, ev) st.total_step init) := by
      unfold optimizedValues
      exact optimizeLoop_le _ S (st.total_step + 1) st.max_iterations _
    exact le_trans hstep (graphError_pin_le arm sdf st (sc, sv) (ec, ev) init)

/-- Witness for claim C2 on a concrete validated run. -/
theorem claim_C2_objective_nonincrease_witness :
    BatchTrajOptimize armW sdfW [0] [0] [1] [0] initW settingW solverW =
      Except.ok (optimizedValues armW sdfW settingW ([0], [0]) ([1], [0])
        initW solverW) ∧
    graphError armW sdfW settingW ([0], [0]) ([1], [0])
      (optimizedValues armW sdfW settingW ([0], [0]) ([1], [0]) initW
        solverW) ≤
    graphError armW sdfW settingW ([0], [0]) ([1], [0]) initW :=
  have h : BatchTrajOptimize armW sdfW [0] [0] [1] [0] initW settingW
      solverW = Except.ok (optimizedValues armW sdfW settingW ([0], [0])
        ([1], [0]) initW solverW) := rfl
  ⟨h, claim_C2_objective_nonincrease armW sdfW [0] [0] [1] [0] initW
    settingW solverW _ h⟩

/-- Claim C6: when N is below 1, or the start or end configuration
dimension mismatches the robot model, or the initial guess length differs
from N + 1, the call fails fast with an InvalidConfiguration error and
returns no trajectory, whatever the solver would do. -/
theorem claim_C6_invalid_configuration (arm : ArmModel) (sdf : PlanarSDF)
    (sc sv ec ev : List ℚ) (init : Values) (st : TrajOptimizerSetting)
    (S : Solver)
    (hbad : st.total_step < 1 ∨ sc.length ≠ arm.dof ∨ ec.length ≠ arm.dof ∨
      init.length ≠ st.total_step + 1) :
    BatchTrajOptimize arm sdf sc sv ec ev init st S =
      Except.error "InvalidConfiguration" := by
  unfold BatchTrajOptimize
  split_ifs with hv1 hv2 hv3 hv4
  · rfl
  · rfl
  · rfl
  · rfl
  · rcases hbad with hx | hx | hx | hx
    · exact absurd hx hv1
    · exact absurd hx hv2
    · exact absurd hx hv3
    · exact absurd hx hv4

/-- Witness for claim C6 on a concrete initial guess that is one knot too
short. -/
theorem claim_C6_invalid_configuration_witness :
    (settingW.total_step < 1 ∨ ([0] : List ℚ).length ≠ armW.dof ∨
      ([1] : List ℚ).length ≠ armW.dof ∨
      ([([0], [0])] : Values).length ≠ settingW.total_step + 1) ∧
    BatchTrajOptimize armW sdfW [0] [0] [1] [0] [([0], [0])] settingW
      solverW = Except.error "InvalidConfiguration" :=
  have hbad : settingW.total_step < 1 ∨ ([0] : List ℚ).length ≠ armW.dof ∨
      ([1] : List ℚ).length ≠ armW.dof ∨
      ([([0], [0])] : Values).length ≠ settingW.total_step + 1 := by
    right
    right
    right
    decide
  ⟨hbad, claim_C6_invalid_configuration armW sdfW [0] [0] [1] [0]
    [([0], [0])] settingW solverW hbad⟩

/-- Claim C7: on validated input the optimizer always returns a complete
trajectory, for every possible behaviour of the black-box solver,
including divergence and exhausting the iteration cap; the returned iterate
is never worse than the initialized one, and no error is raised. -/
theorem claim_C7_best_effort (arm : ArmModel) (sdf : PlanarSDF)
    (sc sv ec ev : List ℚ) (init : Values) (st : TrajOptimizerSetting)
    (S : Solver) (hN : 1 ≤ st.total_step) (h1 : sc.length = arm.dof)
    (h2 : ec.length = arm.dof) (h3 : init.length = st.total_step + 1) :
    BatchTrajOptimize arm sdf sc sv ec ev init st S =
      Except.ok (optimizedValues arm sdf st (sc, sv) (ec, ev) init S) ∧
    (optimizedValues arm sdf st (sc, sv) (ec, ev) init S).length =
      st.total_step + 1 ∧
    graphError arm sdf st (sc, sv) (ec, ev)
      (optimizedValues arm sdf st (sc, sv) (ec, ev) init S) ≤
    graphError arm sdf st (sc, sv) (ec, ev)
      (pinBoundary (sc, sv) (ec, ev) st.total_step init) :=
  ⟨batch_ok arm sdf sc sv ec ev init st S hN h1 h2 h3,
   by
    unfold optimizedValues
    exact optimizeLoop_length _ S (st.total_step + 1) st.max_iterations _
      ((pinBoundary_length (sc, sv) (ec, ev) st.total_step init).trans h3),
   by
    unfold optimizedValues
    exact optimizeLoop_le _ S (st.total_step + 1) st.max_iterations _⟩

/-- Witness for claim C7 on a concrete validated run. -/
theorem claim_C7_best_effort_witness :
    BatchTrajOptimize armW sdfW [0] [0] [1] [0] initW settingW solverW =
      Except.ok (optimizedValues armW sdfW settingW ([0], [0]) ([1], [0])
        initW solverW) ∧
    (optimizedValues armW sdfW settingW ([0], [0]) ([1], [0]) initW
      solverW).length = settingW.total_step + 1 :=
  have hall := claim_C7_best_effort armW sdfW [0] [0] [1] [0] initW settingW
    solverW (by decide) (by decide) (by decide) (by decide)
  ⟨hall.1, hall.2.1⟩

/-- Claim C10: a successful BatchTrajOptimize call returns an assignment
over exactly the key set of the supplied initial values: one pose and one
velocity entry per knot index 0..N, modelled as a knot list of the same
length N + 1, so the caller reads the result back with the same indexing
scheme. -/
theorem claim_C10_keys_preserved (arm : ArmModel) (sdf : PlanarSDF)
    (sc sv ec ev : List ℚ) (init : Values) (st : TrajOptimizerSetting)
    (S : Solver) (R : Values)
    (h : BatchTrajOptimize arm sdf sc sv ec ev init st S = Except.ok R) :
    R.length = init.length ∧ init.length = st.total_step + 1 := by
  unfold BatchTrajOptimize at h
  split_ifs at h with hv1 hv2 hv3 hv4
  · injection h with hR
    subst hR
    have hlen : init.length = st.total_step + 1 := not_ne_iff.mp hv4
    refine ⟨?_, hlen⟩
    unfold optimizedValues
    rw [optimizeLoop_length _ S (st.total_step + 1) st.max_iterations _
      ((pinBoundary_length (sc, sv) (ec, ev) st.total_step init).trans hlen),
      hlen]

/-- Witness for claim C10 on a concrete validated run. -/
theorem claim_C10_keys_preserved_witness :
    BatchTrajOptimize armW sdfW [0] [0] [1] [0] initW settingW solverW =
      Except.ok (optimizedValues armW sdfW settingW ([0], [0]) ([1], [0])
        initW solverW) ∧
    (optimizedValues armW sdfW settingW ([0], [0]) ([1], [0]) initW
      solverW).length = initW.length ∧
    initW.length = settingW.total_step + 1 :=
  have h : BatchTrajOptimize armW sdfW [0] [0] [1] [0] initW settingW
      solverW = Except.ok (optimizedValues armW sdfW settingW ([0], [0])
        ([1], [0]) initW solverW) := rfl
  ⟨h, (claim_C10_keys_preserved armW sdfW [0] [0] [1] [0] initW settingW
      solverW _ h).1,
   (claim_C10_keys_preserved armW sdfW [0] [0] [1] [0] initW settingW
      solverW _ h).2⟩

end gpmp2
